import Mathlib

/-!
Shallow embedding of `proc_cpuinfo` (src/lib.rs), a Rust parser for the
textual `/proc/cpuinfo` format, together with proofs of the specification
claims.  Strings are modelled as `List Char`; Rust `usize` is modelled as a
`Nat` reduced modulo `2 ^ 64` where overflow matters (64-bit target), and
fallible parsing returns `Option`.
-/

namespace ProcCpuinfo

/-- Strings are modelled as lists of characters. -/
abbrev Str := List Char

/-! ## Rust `str` primitives used by the source -/

/-- Rust `str::trim`: drop leading and trailing whitespace
(agrees with Rust on all ASCII input). -/
def rustTrim (s : Str) : Str :=
  ((s.dropWhile Char.isWhitespace).reverse.dropWhile Char.isWhitespace).reverse

/-- Rust `str::split_once(sep)` for a one-character pattern: split at the
first occurrence of `sep`, or `none` if `sep` does not occur. -/
def splitOnceChar (sep : Char) : Str → Option (Str × Str)
  | [] => none
  | c :: rest =>
    if c = sep then some ([], rest)
    else (splitOnceChar sep rest).map (fun p => (c :: p.1, p.2))

/-- Rust `str::split(sep)` for a one-character pattern: always yields at
least one (possibly empty) segment. -/
def splitChar (sep : Char) : Str → List Str
  | [] => [[]]
  | c :: rest =>
    if c = sep then [] :: splitChar sep rest
    else
      match splitChar sep rest with
      | [] => [[c]]
      | r :: rs => (c :: r) :: rs

/-- Rust `str::split ("\n\n")`: split at each leftmost non-overlapping
occurrence of the two-character separator.  `acc` holds the characters of
the current segment in reverse. -/
def splitBlocksAux (acc : Str) : Str → List Str
  | [] => [acc.reverse]
  | [c] => [(c :: acc).reverse]
  | c₁ :: c₂ :: rest =>
    if c₁ = '\n' ∧ c₂ = '\n' then acc.reverse :: splitBlocksAux [] rest
    else splitBlocksAux (c₁ :: acc) (c₂ :: rest)

/-- `text.split ("\n\n")` from `CpuInfo::cpus`. -/
def splitBlocks (s : Str) : List Str := splitBlocksAux [] s

/-- Strip at most one trailing carriage return, as Rust `str::lines` does. -/
def rstripCr (l : Str) : Str :=
  if l.getLast? = some '\r' then l.dropLast else l

/-- Rust `str::lines`: split on `'\n'`, drop a trailing empty line produced
by a final newline and strip a trailing `'\r'` from each line. -/
def rustLines (s : Str) : List Str :=
  (let ps := splitChar '\n' s
   if ps.getLast? = some [] then ps.dropLast else ps).map rstripCr

/-- One fuelled step loop for `str::trim_start_matches`: remove the prefix
`pat` while it is present.  Each removal consumes at least one character,
so fuel `s.length` always suffices. -/
def trimStartMatchesFuel (pat : Str) : Nat → Str → Str
  | 0, s => s
  | fuel + 1, s =>
    if pat ≠ [] ∧ pat.isPrefixOf s then
      trimStartMatchesFuel pat fuel (s.drop pat.length)
    else s

/-- Rust `str::trim_start_matches(pat)`: repeatedly remove the prefix `pat`
while it is present (here `pat` is nonempty in every use). -/
def trimStartMatches (pat s : Str) : Str :=
  trimStartMatchesFuel pat s.length s

/-- Rust `str::trim_end_matches(pat)`: repeatedly remove the suffix `pat`
while it is present. -/
def trimEndMatches (pat : Str) (s : Str) : Str :=
  (trimStartMatches pat.reverse s.reverse).reverse

/-! ## Rust integer parsing -/

/-- The modulus of Rust `usize` on the 64-bit targets the crate runs on. -/
def usizeBound : Nat := 2 ^ 64

/-- Accumulate ASCII decimal digits; `none` on any non-digit. -/
def parseDecAux (acc : Nat) : Str → Option Nat
  | [] => some acc
  | c :: rest =>
    if c.isDigit then parseDecAux (acc * 10 + (c.toNat - 48)) rest
    else none

/-- The digit part of `usize::from_str`: one or more ASCII decimal digits,
rejecting overflow past `usize::MAX`. -/
def parseUsizeCore : Str → Option Nat
  | [] => none
  | t =>
    (parseDecAux 0 t).bind fun n => if n < usizeBound then some n else none

/-- Rust `usize::from_str` (`str::parse::<usize>()`): an optional leading
`'+'`, then one or more ASCII decimal digits; fails on an empty digit
string, on any other character, and on overflow past `usize::MAX`. -/
def parseUsize : Str → Option Nat
  | '+' :: rest => parseUsizeCore rest
  | other => parseUsizeCore other

/-- Value of an ASCII hexadecimal digit, if it is one. -/
def hexDigit? (c : Char) : Option Nat :=
  if c.isDigit then some (c.toNat - 48)
  else if 'a' ≤ c ∧ c ≤ 'f' then some (c.toNat - 87)
  else if 'A' ≤ c ∧ c ≤ 'F' then some (c.toNat - 55)
  else none

/-- Accumulate ASCII hexadecimal digits; `none` on any non-digit. -/
def parseHexAux (acc : Nat) : Str → Option Nat
  | [] => some acc
  | c :: rest =>
    match hexDigit? c with
    | some d => parseHexAux (acc * 16 + d) rest
    | none => none

/-- The digit part of `usize::from_str_radix(_, 16)`: one or more ASCII
hexadecimal digits, rejecting overflow past `usize::MAX`. -/
def parseHexUsizeCore : Str → Option Nat
  | [] => none
  | t =>
    (parseHexAux 0 t).bind fun n => if n < usizeBound then some n else none

/-- Rust `usize::from_str_radix(s, 16)`: an optional leading `'+'`, then one
or more ASCII hexadecimal digits; fails on empty input, on any other
character, and on overflow past `usize::MAX`. -/
def parseHexUsize : Str → Option Nat
  | '+' :: rest => parseHexUsizeCore rest
  | other => parseHexUsizeCore other

/-! ## The `Cpu` field map (src/lib.rs lines 71-87) -/

/-- `const KIB: usize = 1024;` -/
def KIB : Nat := 1024
/-- `const MIB: usize = 1024 * KIB;` -/
def MIB : Nat := 1024 * KIB
/-- `const GIB: usize = 1024 * MIB;` -/
def GIB : Nat := 1024 * MIB

/-- One parsed block: the contents of the Rust
`HashMap<&str, &str>` as a list of key/value pairs with unique keys,
in insertion order. -/
structure Cpu where
  pairs : List (Str × Str)
deriving DecidableEq

/-- `HashMap::insert`: overwrite the value if the key is present, otherwise
add the new pair. -/
def hmInsert (m : List (Str × Str)) (k v : Str) : List (Str × Str) :=
  if m.any (fun p => p.1 = k) then
    m.map (fun p => if p.1 = k then (k, v) else p)
  else m ++ [(k, v)]

/-- The trimmed key/value pairs of a raw block, in line order: for each line
that contains a colon, split at the first colon and trim both sides
(`Cpu::from_str`'s iterator before `collect`). -/
def kvPairs (s : Str) : List (Str × Str) :=
  (rustLines s).filterMap fun line =>
    (splitOnceChar ':' line).map fun p => (rustTrim p.1, rustTrim p.2)

/-- `Cpu::from_str`: collect the trimmed pairs into a hash map by
sequential insertion (a later occurrence of a key overwrites an earlier
one). -/
def Cpu.fromStr (s : Str) : Cpu :=
  ⟨(kvPairs s).foldl (fun m p => hmInsert m p.1 p.2) []⟩

/-- `Cpu::get`: look the key up in the map. -/
def Cpu.get (c : Cpu) (key : Str) : Option Str :=
  (c.pairs.find? (fun p => p.1 = key)).map Prod.snd

/-! ## Typed accessors (src/lib.rs lines 89-253) -/

/-- `Cpu::processor`. -/
def Cpu.processor (c : Cpu) : Option Nat :=
  (c.get ("processor".toList)).bind parseUsize

/-- `Cpu::microcode`: strip every leading `"0x"` and parse base 16. -/
def Cpu.microcode (c : Cpu) : Option Nat :=
  (c.get ("microcode".toList)).bind fun s =>
    parseHexUsize (trimStartMatches ("0x".toList) s)

/-- `Cpu::cache_size`: `<N> <UNIT>` multiplies by the unit constant with
unchecked `usize` arithmetic (wrapping modulo `2 ^ 64` in release builds);
a bare number is taken as bytes; an unknown unit is `None`. -/
def Cpu.cache_size (c : Cpu) : Option Nat :=
  (c.get ("cache size".toList)).bind fun s =>
    match splitOnceChar ' ' s with
    | some (value, unit) =>
      (parseUsize value).bind fun n =>
        if unit = "B".toList then some n
        else if unit = "KB".toList then some (n * KIB % usizeBound)
        else if unit = "MB".toList then some (n * MIB % usizeBound)
        else if unit = "GB".toList then some (n * GIB % usizeBound)
        else none
    | none => parseUsize s

/-- `Cpu::fpu`. -/
def Cpu.fpu (c : Cpu) : Option Bool :=
  (c.get ("fpu".toList)).map (fun s => s = "yes".toList)

/-- `Cpu::fpu_exception`. -/
def Cpu.fpu_exception (c : Cpu) : Option Bool :=
  (c.get ("fpu_exception".toList)).map (fun s => s = "yes".toList)

/-- `Cpu::wp`. -/
def Cpu.wp (c : Cpu) : Option Bool :=
  (c.get ("wp".toList)).map (fun s => s = "yes".toList)

/-- `Cpu::flags`: split the value on single spaces and collect into a
`HashSet` (modelled as a `Finset`); an absent key gives the empty set. -/
def Cpu.flags (c : Cpu) : Finset Str :=
  match c.get ("flags".toList) with
  | none => ∅
  | some s => (splitChar ' ' s).toFinset

/-- `Cpu::vmx_flags`. -/
def Cpu.vmx_flags (c : Cpu) : Finset Str :=
  match c.get ("vmx flags".toList) with
  | none => ∅
  | some s => (splitChar ' ' s).toFinset

/-- `Cpu::bugs`. -/
def Cpu.bugs (c : Cpu) : Finset Str :=
  match c.get ("bugs".toList) with
  | none => ∅
  | some s => (splitChar ' ' s).toFinset

/-- `Cpu::address_sizes`: split on the comma, trim each side, strip the
fixed suffixes and parse both sides. -/
def Cpu.address_sizes (c : Cpu) : Option (Nat × Nat) :=
  ((c.get ("address sizes".toList)).bind fun s =>
    (splitOnceChar ',' s).map fun p =>
      (trimEndMatches (" bits physical".toList) (rustTrim p.1),
       trimEndMatches (" bits virtual".toList) (rustTrim p.2))).bind
    fun pv =>
      (parseUsize pv.1).bind fun phy =>
        (parseUsize pv.2).map fun vir => (phy, vir)

/-- `Cpu::power_management`: the raw trimmed value, verbatim. -/
def Cpu.power_management (c : Cpu) : Option Str :=
  c.get ("power management".toList)

/-! ## The `CpuInfo` container (src/lib.rs lines 12-49) -/

/-- `CpuInfo`: owns the raw source text. -/
structure CpuInfo where
  text : Str
deriving DecidableEq

/-- `CpuInfo::cpus`: split the text on `"\n\n"`, drop empty segments, parse
each remaining raw block.  A pure function of the text: every call yields
the same fresh sequence. -/
def CpuInfo.cpus (info : CpuInfo) : List Cpu :=
  (((splitBlocks info.text).filter (fun b => ¬ b.isEmpty)).map Cpu.fromStr)

/-- `CpuInfo::cpu`: pair each block with its parsed `processor` field,
dropping blocks where it is absent, and return the first block whose
`processor` equals `index`. -/
def CpuInfo.cpu (info : CpuInfo) (index : Nat) : Option Cpu :=
  ((info.cpus.filterMap fun c => c.processor.map fun p => (p, c)).findSome?
    fun pc => if pc.1 = index then some pc.2 else none)

/-! ## Specification-side definitions -/

/-- The value attached to the last occurrence of a key in a pair list
(the value that survives sequential hash-map insertion). -/
def lookupLast (ps : List (Str × Str)) (k : Str) : Option Str :=
  (ps.reverse.find? (fun p => p.1 = k)).map Prod.snd

/-- The unit multiplier of `Cpu::cache_size`:
`B`, `KB`, `MB`, `GB` map to `1`, `KIB`, `MIB`, `GIB`; anything else is
unrecognized. -/
def unitFactor (u : Str) : Option Nat :=
  if u = "B".toList then some 1
  else if u = "KB".toList then some KIB
  else if u = "MB".toList then some MIB
  else if u = "GB".toList then some GIB
  else none

/-- `true` iff the string contains no two consecutive newline characters,
i.e. no occurrence of the block separator `"\n\n"`. -/
def noTwoNl : Str → Bool
  | [] => true
  | [_] => true
  | c₁ :: c₂ :: rest =>
    if c₁ = '\n' ∧ c₂ = '\n' then false else noTwoNl (c₂ :: rest)

/-- A well-formed raw block: nonempty, free of blank lines (no `"\n\n"`
inside), and not ending in a newline (so that appending the separator does
not create an earlier occurrence of `"\n\n"`). -/
def goodBlock (b : Str) : Prop :=
  b ≠ [] ∧ noTwoNl b = true ∧ b.getLast? ≠ some '\n'

instance : DecidablePred goodBlock := fun _ => by
  unfold goodBlock; infer_instance

/-- Join raw blocks with the blank-line separator `"\n\n"`. -/
def joinBlocks : List Str → Str
  | [] => []
  | [b] => b
  | b :: c :: bs => b ++ '\n' :: '\n' :: joinBlocks (c :: bs)

/-! ## Test fixtures (concrete inputs for witnesses and counterexamples) -/

/-- A block whose `cache size` product overflows 64-bit `usize`:
`2 ^ 54 * GIB = 2 ^ 84 ≥ 2 ^ 64`. -/
def overflowBlock : Str := "cache size\t: 18014398509481984 GB".toList

/-- A block with an empty-valued `flags` line. -/
def emptyFlagsBlock : Str := "flags\t\t:".toList

/-- A block with an empty-valued `power management` line. -/
def powerBlock : Str := "cpu MHz\t\t: 2500.000\npower management:".toList

/-- A `microcode` value without the `0x` prefix. -/
def mcBare : Str := "microcode\t: 2c".toList

/-- A `microcode` value with a single `0x` prefix. -/
def mcPrefixed : Str := "microcode\t: 0x2c".toList

/-- A `microcode` value with a doubled `0x` prefix. -/
def mcDoubled : Str := "microcode\t: 0x0x2c".toList

/-- A small two-line block used by several witnesses. -/
def smallBlock : Str := "processor\t: 0\ncache size\t: 18432 KB".toList

/-- A block with no `processor` line. -/
def noProcBlock : Str := "model\t\t: 151".toList

/-- A block with boolean-valued fields. -/
def boolBlock : Str := "fpu\t\t: yes\nwp\t\t: no".toList

/-- A block with an `address sizes` line. -/
def addrBlock : Str := "address sizes\t: 39 bits physical, 48 bits virtual".toList

/-- A block whose `address sizes` value has no comma. -/
def addrNoComma : Str := "address sizes\t: 39 bits physical 48 bits virtual".toList

/-- A block with space-separated `flags`. -/
def flagsBlock : Str := "flags\t\t: fpu mmx sse fpu".toList

/-- A block whose `cache size` value is a bare number without a unit. -/
def bareBlock : Str := "cache size\t: 1048576".toList

/-- A block whose `cache size` numeric part is unparsable. -/
def badCacheBlock : Str := "cache size\t: abc KB".toList

/-! ## Lemmas about hash-map insertion and lookup -/

lemma find?_map_replace_ne (m : List (Str × Str)) (k v k' : Str) (h : k' ≠ k) :
    (m.map (fun p => if p.1 = k then (k, v) else p)).find? (fun p => p.1 = k') =
      m.find? (fun p => p.1 = k') := by
  induction m with
  | nil => rfl
  | cons q m ih =>
    rw [List.map_cons]
    by_cases hq : q.1 = k
    · have h2 : ¬ (q.1 = k') := by rw [hq]; exact Ne.symm h
      rw [if_pos hq, List.find?_cons_of_neg _ (by simpa using Ne.symm h),
        List.find?_cons_of_neg _ (by simpa using h2), ih]
    · rw [if_neg hq]
      by_cases hq' : q.1 = k'
      · rw [List.find?_cons_of_pos _ (by simpa using hq'),
          List.find?_cons_of_pos _ (by simpa using hq')]
      · rw [List.find?_cons_of_neg _ (by simpa using hq'),
          List.find?_cons_of_neg _ (by simpa using hq'), ih]

lemma find?_map_replace_eq (m : List (Str × Str)) (k v : Str)
    (h : m.any (fun p => p.1 = k)) :
    (m.map (fun p => if p.1 = k then (k, v) else p)).find? (fun p => p.1 = k) =
      some (k, v) := by
  induction m with
  | nil => simp at h
  | cons q m ih =>
    rw [List.map_cons]
    by_cases hq : q.1 = k
    · rw [if_pos hq, List.find?_cons_of_pos _ (by simp)]
    · have h' : m.any (fun p => p.1 = k) := by
        simp only [List.any_cons] at h
        rcases Bool.or_eq_true_iff.mp h with h1 | h1
        · exact absurd (by simpa using h1) hq
        · exact h1
      rw [if_neg hq, List.find?_cons_of_neg _ (by simpa using hq), ih h']

lemma find?_hmInsert (m : List (Str × Str)) (k v k' : Str) :
    ((hmInsert m k v).find? (fun p => p.1 = k')).map Prod.snd =
      if k' = k then some v else (m.find? (fun p => p.1 = k')).map Prod.snd := by
  unfold hmInsert
  by_cases hany : m.any (fun p => p.1 = k)
  · rw [if_pos hany]
    by_cases hk : k' = k
    · subst hk; rw [find?_map_replace_eq m k' v hany]; simp
    · rw [find?_map_replace_ne m k v k' hk, if_neg hk]
  · rw [if_neg hany]
    have hnone : m.find? (fun p => p.1 = k) = none := by
      rw [List.find?_eq_none]
      intro x hx hpx
      exact hany (List.any_eq_true.mpr ⟨x, hx, hpx⟩)
    by_cases hk : k' = k
    · subst hk
      rw [List.find?_append, hnone]
      simp
    · have h1 : ¬ ((k, v).1 = k') := by simpa using (Ne.symm hk)
      rw [List.find?_append, if_neg hk]
      simp [List.find?_cons_of_neg, h1]

lemma get_foldl (ps : List (Str × Str)) :
    ∀ (m : List (Str × Str)) (k : Str),
      (((ps.foldl (fun m p => hmInsert m p.1 p.2) m)).find?
          (fun p => p.1 = k)).map Prod.snd =
        (lookupLast ps k).or ((m.find? (fun p => p.1 = k)).map Prod.snd) := by
  induction ps with
  | nil => intro m k; simp [lookupLast]
  | cons p ps ih =>
    intro m k
    rw [List.foldl_cons, ih]
    have hlast : lookupLast (p :: ps) k =
        (lookupLast ps k).or (if p.1 = k then some p.2 else none) := by
      unfold lookupLast
      rw [List.reverse_cons, List.find?_append]
      by_cases hp : p.1 = k
      · cases hfind : ps.reverse.find? (fun q => q.1 = k) <;>
          simp [hfind, hp, Option.or]
      · cases hfind : ps.reverse.find? (fun q => q.1 = k) <;>
          simp [hfind, hp, Option.or]
    rw [hlast, find?_hmInsert]
    cases hfind : lookupLast ps k with
    | some w => simp [Option.or]
    | none =>
      by_cases hp : p.1 = k
      · simp [Option.or, hp, Ne.symm, eq_comm]
      · have : ¬ (k = p.1) := fun h => hp h.symm
        simp [Option.or, hp, this]

lemma get_fromStr (raw k : Str) :
    (Cpu.fromStr raw).get k = lookupLast (kvPairs raw) k := by
  unfold Cpu.fromStr Cpu.get
  rw [get_foldl]
  simp

lemma lookupLast_eq_some (ps : List (Str × Str)) (k v : Str)
    (hmem : (k, v) ∈ ps) (huniq : ∀ p ∈ ps, p.1 = k → p.2 = v) :
    lookupLast ps k = some v := by
  unfold lookupLast
  have hsome : (ps.reverse.find? (fun p => p.1 = k)).isSome := by
    rw [List.find?_isSome]
    exact ⟨(k, v), List.mem_reverse.mpr hmem, by simp⟩
  cases hfind : ps.reverse.find? (fun p => p.1 = k) with
  | none => rw [hfind] at hsome; simp at hsome
  | some q =>
    have hq : q.1 = k := by simpa using List.find?_some hfind
    have hqmem : q ∈ ps := List.mem_reverse.mp (List.mem_of_find?_eq_some hfind)
    have : q.2 = v := huniq q hqmem hq
    simp [this]

/-! ## Lemmas about block splitting -/

lemma splitBlocksAux_sep :
    ∀ (b : Str), noTwoNl b = true → b.getLast? ≠ some '\n' →
      ∀ (acc t : Str),
        splitBlocksAux acc (b ++ '\n' :: '\n' :: t) =
          (acc.reverse ++ b) :: splitBlocksAux [] t := by
  intro b
  induction b with
  | nil => intro _ _ acc t; simp [splitBlocksAux]
  | cons c b ih =>
    intro hb hl acc t
    cases b with
    | nil =>
      have hc : c ≠ '\n' := fun h => hl (by simp [h])
      simp [splitBlocksAux, hc]
    | cons d b' =>
      have hcd : ¬ (c = '\n' ∧ d = '\n') := by
        intro h
        rw [noTwoNl, if_pos h] at hb
        exact Bool.false_ne_true hb
      have hb' : noTwoNl (d :: b') = true := by
        rw [noTwoNl, if_neg hcd] at hb
        exact hb
      have hl' : (d :: b').getLast? ≠ some '\n' := by
        rwa [List.getLast?_cons_cons] at hl
      calc splitBlocksAux acc ((c :: d :: b') ++ '\n' :: '\n' :: t)
          = splitBlocksAux (c :: acc) ((d :: b') ++ '\n' :: '\n' :: t) := by
            rw [List.cons_append, List.cons_append, splitBlocksAux, if_neg hcd]
        _ = ((c :: acc).reverse ++ (d :: b')) :: splitBlocksAux [] t :=
            ih hb' hl' (c :: acc) t
        _ = (acc.reverse ++ (c :: d :: b')) :: splitBlocksAux [] t := by
            simp

lemma splitBlocksAux_no_sep :
    ∀ (b : Str), noTwoNl b = true →
      ∀ (acc : Str), splitBlocksAux acc b = [acc.reverse ++ b] := by
  intro b
  induction b with
  | nil => intro _ acc; simp [splitBlocksAux]
  | cons c b ih =>
    intro hb acc
    cases b with
    | nil => simp [splitBlocksAux]
    | cons d b' =>
      have hcd : ¬ (c = '\n' ∧ d = '\n') := by
        intro h
        rw [noTwoNl, if_pos h] at hb
        exact Bool.false_ne_true hb
      have hb' : noTwoNl (d :: b') = true := by
        rw [noTwoNl, if_neg hcd] at hb
        exact hb
      rw [splitBlocksAux, if_neg hcd, ih hb' (c :: acc)]
      simp

lemma splitBlocks_joinBlocks :
    ∀ (bs : List Str), bs ≠ [] →
      (∀ b ∈ bs, noTwoNl b = true ∧ b.getLast? ≠ some '\n') →
      splitBlocks (joinBlocks bs) = bs := by
  intro bs
  induction bs with
  | nil => intro h; exact absurd rfl h
  | cons b bs ih =>
    intro _ hgood
    cases bs with
    | nil =>
      have h := hgood b (by simp)
      simp [joinBlocks, splitBlocks, splitBlocksAux_no_sep b h.1 []]
    | cons c bs' =>
      have h := hgood b (by simp)
      have hrest : ∀ x ∈ c :: bs', noTwoNl x = true ∧ x.getLast? ≠ some '\n' :=
        fun x hx => hgood x (by simp [hx])
      unfold joinBlocks splitBlocks
      rw [splitBlocksAux_sep b h.1 h.2 [] (joinBlocks (c :: bs'))]
      have := ih (by simp) hrest
      unfold splitBlocks at this
      rw [this]
      simp

/-! ## Lemmas about splitting, parsing and prefix stripping -/

lemma splitOnceChar_append (sep : Char) :
    ∀ (v u : Str), sep ∉ v → splitOnceChar sep (v ++ sep :: u) = some (v, u) := by
  intro v
  induction v with
  | nil => intro u _; simp [splitOnceChar]
  | cons c v ih =>
    intro u hns
    have hc : c ≠ sep := fun h => hns (by simp [h])
    have : sep ∉ v := fun h => hns (by simp [h])
    rw [List.cons_append, splitOnceChar, if_neg hc, ih u this]
    rfl

lemma splitOnceChar_none (sep : Char) :
    ∀ (s : Str), sep ∉ s → splitOnceChar sep s = none := by
  intro s
  induction s with
  | nil => intro _; rfl
  | cons c s ih =>
    intro hns
    have hc : c ≠ sep := fun h => hns (by simp [h])
    have : sep ∉ s := fun h => hns (by simp [h])
    rw [splitOnceChar, if_neg hc, ih this]
    rfl

lemma parseUsizeCore_lt (t : Str) (n : Nat) (h : parseUsizeCore t = some n) :
    n < usizeBound := by
  unfold parseUsizeCore at h
  split at h
  · exact absurd h (by simp)
  · rcases Option.bind_eq_some.mp h with ⟨m, _, hm⟩
    split at hm
    · cases hm; assumption
    · exact absurd hm (by simp)

lemma parseUsize_lt (s : Str) (n : Nat) (h : parseUsize s = some n) :
    n < usizeBound := by
  unfold parseUsize at h
  split at h <;> exact parseUsizeCore_lt _ _ h

lemma trimStartMatchesFuel_nil (pat : Str) :
    ∀ (fuel : Nat), trimStartMatchesFuel pat fuel [] = [] := by
  intro fuel
  cases fuel with
  | zero => rfl
  | succ f =>
    rw [trimStartMatchesFuel]
    split
    · rename_i h
      cases hp : pat with
      | nil => exact absurd hp h.1
      | cons p ps =>
        rw [hp] at h
        exact absurd h.2 (by simp [List.isPrefixOf])
    · rfl

lemma trimStartMatchesFuel_eq (pat : Str) :
    ∀ (fuel₁ fuel₂ : Nat) (s : Str), s.length ≤ fuel₁ → s.length ≤ fuel₂ →
      trimStartMatchesFuel pat fuel₁ s = trimStartMatchesFuel pat fuel₂ s := by
  intro fuel₁
  induction fuel₁ with
  | zero =>
    intro fuel₂ s h₁ _
    have : s = [] := List.length_eq_zero.mp (Nat.le_zero.mp h₁)
    subst this
    simp [trimStartMatchesFuel_nil]
  | succ f ih =>
    intro fuel₂ s h₁ h₂
    cases fuel₂ with
    | zero =>
      have : s = [] := List.length_eq_zero.mp (Nat.le_zero.mp h₂)
      subst this
      simp [trimStartMatchesFuel_nil]
    | succ g =>
      rw [trimStartMatchesFuel, trimStartMatchesFuel]
      split
      · rename_i h
        have hplen : 0 < pat.length := List.length_pos.mpr h.1
        have hslen : 0 < s.length := by
          cases hs : s with
          | nil =>
            rw [hs] at h
            cases hp : pat with
            | nil => exact absurd hp h.1
            | cons p ps =>
              rw [hp] at h
              exact absurd h.2 (by simp [List.isPrefixOf])
          | cons c cs => simp [hs]
        have hd : (s.drop pat.length).length ≤ f := by
          simp only [List.length_drop]; omega
        have hd' : (s.drop pat.length).length ≤ g := by
          simp only [List.length_drop]; omega
        exact ih g _ hd hd'
      · rfl

lemma trimStartMatches_0x (s : Str) :
    trimStartMatches ("0x".toList) ('0' :: 'x' :: s) = trimStartMatches ("0x".toList) s := by
  unfold trimStartMatches
  rw [show ('0' :: 'x' :: s).length = s.length + 1 + 1 from by simp]
  rw [trimStartMatchesFuel]
  rw [if_pos ⟨by decide, by simp [List.isPrefixOf]⟩]
  have : ('0' :: 'x' :: s).drop ("0x".toList.length) = s := rfl
  rw [this]
  exact trimStartMatchesFuel_eq _ _ _ _ (by omega) (by omega)

lemma cpu_filterMap_find (i : Nat) :
    ∀ (l : List Cpu),
      ((l.filterMap fun c => c.processor.map fun p => (p, c)).findSome?
        fun pc => if pc.1 = i then some pc.2 else none) =
      l.find? (fun c => decide (c.processor = some i)) := by
  intro l
  induction l with
  | nil => rfl
  | cons c l ih =>
    cases h : c.processor with
    | none =>
      rw [List.filterMap_cons_none (by simp [h]), ih,
        List.find?_cons_of_neg _ (by simp [h])]
    | some p =>
      rw [List.filterMap_cons_some (b := (p, c)) (by simp [h])]
      by_cases hp : p = i
      · subst hp
        rw [List.find?_cons_of_pos _ (by simp [h]), List.findSome?_cons]
        simp
      · rw [List.find?_cons_of_neg _ (by simp [h, hp]), List.findSome?_cons]
        simp [hp, ih]

/-! ## Claim theorems -/

/-- C1: `CpuInfo::cpu` scans the block sequence in document order and
returns the first block whose `processor` field is present and parses to
exactly the requested index; it returns `none` when no block matches,
including when the `processor` field is missing or unparsable in every
block.  Block position in the sequence is never used as the index. -/
theorem claim1_cpu_index_scan :
    (∀ (info : CpuInfo) (i : Nat),
      info.cpu i = info.cpus.find? (fun c => decide (c.processor = some i))) ∧
    (∀ (info : CpuInfo) (i : Nat),
      (∀ c ∈ info.cpus, c.processor ≠ some i) → info.cpu i = none) := by
  have key : ∀ (info : CpuInfo) (i : Nat),
      info.cpu i = info.cpus.find? (fun c => decide (c.processor = some i)) := by
    intro info i
    unfold CpuInfo.cpu
    exact cpu_filterMap_find i info.cpus
  refine ⟨key, ?_⟩
  intro info i h
  rw [key, List.find?_eq_none]
  intro x hx
  simp [h x hx]

/-- Witness for C1 at a concrete input: a block without a `processor`
field never matches, so the lookup is absent. -/
theorem claim1_cpu_index_scan_witness :
    (∀ c ∈ (CpuInfo.mk noProcBlock).cpus, c.processor ≠ some 0) ∧
    (CpuInfo.mk noProcBlock).cpu 0 = none :=
  ⟨by decide, claim1_cpu_index_scan.2 (CpuInfo.mk noProcBlock) 0 (by decide)⟩

/-- C3: the field-mapping parser splits each line containing a colon at the
first colon, trims key and value, and inserts so that a later occurrence of
a key overwrites an earlier one (`Cpu::get` returns the value of the last
line with that key); consequently a key present with an unambiguous value
`V` yields exactly `V` (after trimming) from the generic lookup. -/
theorem claim3_field_map_roundtrip :
    (∀ (raw k : Str), (Cpu.fromStr raw).get k = lookupLast (kvPairs raw) k) ∧
    (∀ (raw k v : Str), (k, v) ∈ kvPairs raw →
      (∀ p ∈ kvPairs raw, p.1 = k → p.2 = v) →
      (Cpu.fromStr raw).get k = some v) := by
  refine ⟨get_fromStr, ?_⟩
  intro raw k v hmem huniq
  rw [get_fromStr, lookupLast_eq_some _ _ _ hmem huniq]

/-- Witness for C3 at a concrete input. -/
theorem claim3_field_map_roundtrip_witness :
    ("processor".toList, "0".toList) ∈ kvPairs smallBlock ∧
    (Cpu.fromStr smallBlock).get ("processor".toList) = some ("0".toList) :=
  ⟨by decide,
   claim3_field_map_roundtrip.2 smallBlock ("processor".toList) ("0".toList)
     (by decide) (by decide)⟩

/-- C7: `fpu`, `fpu_exception` and `wp` are present-`true` iff the raw
value equals exactly `"yes"`; any other present value yields
present-`false`; a missing key yields `none`. -/
theorem claim7_yes_booleans :
    (∀ (c : Cpu) (s : Str), c.get ("fpu".toList) = some s →
      ((c.fpu = some true ↔ s = "yes".toList) ∧
        (s ≠ "yes".toList → c.fpu = some false))) ∧
    (∀ c : Cpu, c.get ("fpu".toList) = none → c.fpu = none) ∧
    (∀ (c : Cpu) (s : Str), c.get ("fpu_exception".toList) = some s →
      ((c.fpu_exception = some true ↔ s = "yes".toList) ∧
        (s ≠ "yes".toList → c.fpu_exception = some false))) ∧
    (∀ c : Cpu, c.get ("fpu_exception".toList) = none → c.fpu_exception = none) ∧
    (∀ (c : Cpu) (s : Str), c.get ("wp".toList) = some s →
      ((c.wp = some true ↔ s = "yes".toList) ∧
        (s ≠ "yes".toList → c.wp = some false))) ∧
    (∀ c : Cpu, c.get ("wp".toList) = none → c.wp = none) := by
  refine ⟨?_, ?_, ?_, ?_, ?_, ?_⟩
  · intro c s h
    unfold Cpu.fpu
    rw [h]
    refine ⟨by simp, fun hne => ?_⟩
    have hne' : ¬ s = ['y', 'e', 's'] := by simpa using hne
    simp [hne']
  · intro c h; unfold Cpu.fpu; rw [h]; rfl
  · intro c s h
    unfold Cpu.fpu_exception
    rw [h]
    refine ⟨by simp, fun hne => ?_⟩
    have hne' : ¬ s = ['y', 'e', 's'] := by simpa using hne
    simp [hne']
  · intro c h; unfold Cpu.fpu_exception; rw [h]; rfl
  · intro c s h
    unfold Cpu.wp
    rw [h]
    refine ⟨by simp, fun hne => ?_⟩
    have hne' : ¬ s = ['y', 'e', 's'] := by simpa using hne
    simp [hne']
  · intro c h; unfold Cpu.wp; rw [h]; rfl

/-- Witness for C7 at a concrete input: `yes` is true, `no` is false, a
missing key is absent. -/
theorem claim7_yes_booleans_witness :
    (Cpu.fromStr boolBlock).fpu = some true ∧
    (Cpu.fromStr boolBlock).wp = some false ∧
    (Cpu.fromStr boolBlock).fpu_exception = none :=
  ⟨(claim7_yes_booleans.1 (Cpu.fromStr boolBlock) "yes".toList (by decide)).1.mpr rfl,
   (claim7_yes_booleans.2.2.2.2.1 (Cpu.fromStr boolBlock) "no".toList (by decide)).2
     (by decide),
   claim7_yes_booleans.2.2.2.1 (Cpu.fromStr boolBlock) (by decide)⟩

/-- C8: a block containing the line `"power management:"` yields a present
empty string from `power_management`, distinct from the absent result when
the key is missing; more generally, a missing key or a value that fails to
parse always gives an absent result in the typed accessors. -/
theorem claim8_absent_policy :
    ((Cpu.fromStr powerBlock).power_management = some [] ∧
      (Cpu.fromStr powerBlock).power_management ≠ none) ∧
    (∀ c : Cpu, c.get ("power management".toList) = none →
      c.power_management = none) ∧
    (∀ c : Cpu, c.get ("processor".toList) = none → c.processor = none) ∧
    (∀ (c : Cpu) (s : Str), c.get ("processor".toList) = some s →
      parseUsize s = none → c.processor = none) ∧
    (∀ c : Cpu, c.get ("cache size".toList) = none → c.cache_size = none) ∧
    (∀ c : Cpu, c.get ("microcode".toList) = none → c.microcode = none) ∧
    (∀ c : Cpu, c.get ("address sizes".toList) = none → c.address_sizes = none) ∧
    (∀ c : Cpu, c.get ("fpu".toList) = none → c.fpu = none) := by
  refine ⟨⟨by decide, by decide⟩, ?_, ?_, ?_, ?_, ?_, ?_, ?_⟩
  · intro c h; unfold Cpu.power_management; rw [h]
  · intro c h; unfold Cpu.processor; rw [h]; rfl
  · intro c s h hp; unfold Cpu.processor; rw [h]; simp [hp]
  · intro c h; unfold Cpu.cache_size; rw [h]; rfl
  · intro c h; unfold Cpu.microcode; rw [h]; rfl
  · intro c h; unfold Cpu.address_sizes; rw [h]; rfl
  · intro c h; unfold Cpu.fpu; rw [h]; rfl

/-- Witness for C8 at a concrete input. -/
theorem claim8_absent_policy_witness :
    (Cpu.fromStr noProcBlock).get ("power management".toList) = none ∧
    (Cpu.fromStr noProcBlock).power_management = none :=
  ⟨by decide, claim8_absent_policy.2.1 (Cpu.fromStr noProcBlock) (by decide)⟩

/-- C10: `microcode` removes every leading `"0x"` from the raw value and
parses the remainder as base 16, so prepending `"0x"` to any value never
changes the result; in particular a bare `"2c"` and a doubled `"0x0x2c"`
both parse to 44 — acceptance is strictly broader than the
single-`"0x"`-prefixed shape. -/
theorem claim10_microcode_prefix :
    (∀ (c c' : Cpu) (s : Str), c.get ("microcode".toList) = some s →
      c'.get ("microcode".toList) = some ('0' :: 'x' :: s) →
      c'.microcode = c.microcode) ∧
    (Cpu.fromStr mcBare).microcode = some 44 ∧
    (Cpu.fromStr mcDoubled).microcode = some 44 := by
  refine ⟨?_, by decide, by decide⟩
  intro c c' s h h'
  unfold Cpu.microcode
  rw [h, h']
  simp only [Option.some_bind]
  exact congrArg parseHexUsize (trimStartMatches_0x s)

/-- Witness for C10 at a concrete input: the `0x`-prefixed and bare forms
agree. -/
theorem claim10_microcode_prefix_witness :
    (Cpu.fromStr mcPrefixed).microcode = (Cpu.fromStr mcBare).microcode :=
  claim10_microcode_prefix.1 (Cpu.fromStr mcBare) (Cpu.fromStr mcPrefixed)
    "2c".toList (by decide) (by decide)

/-- C2: the block sequence of `CpuInfo::cpus` is the list of substrings
obtained by splitting the text on the exact two-character separator
`"\n\n"` with all empty substrings removed, in document order; for
well-formed input with `N` blank-line-separated non-empty blocks it yields
exactly `N` elements.  `cpus` is a pure function of the text, so every call
yields the same fresh sequence. -/
theorem claim2_cpus_block_sequence :
    (∀ (text : Str), (CpuInfo.mk text).cpus =
      ((splitBlocks text).filter (fun b => ¬ b.isEmpty)).map Cpu.fromStr) ∧
    (∀ (bs : List Str), bs ≠ [] → (∀ b ∈ bs, goodBlock b) →
      (CpuInfo.mk (joinBlocks bs)).cpus = bs.map Cpu.fromStr ∧
      ((CpuInfo.mk (joinBlocks bs)).cpus).length = bs.length) := by
  refine ⟨fun _ => rfl, ?_⟩
  intro bs hne hgood
  have hsplit : splitBlocks (joinBlocks bs) = bs :=
    splitBlocks_joinBlocks bs hne (fun b hb => ⟨(hgood b hb).2.1, (hgood b hb).2.2⟩)
  have hfilter : bs.filter (fun b => ¬ b.isEmpty) = bs := by
    rw [List.filter_eq_self]
    intro b hb
    have hb' := (hgood b hb).1
    cases b with
    | nil => exact absurd rfl hb'
    | cons c cs => simp
  have hmain : (CpuInfo.mk (joinBlocks bs)).cpus = bs.map Cpu.fromStr := by
    show ((splitBlocks (joinBlocks bs)).filter (fun b => ¬ b.isEmpty)).map
      Cpu.fromStr = bs.map Cpu.fromStr
    rw [hsplit, hfilter]
  exact ⟨hmain, by rw [hmain, List.length_map]⟩

/-- Witness for C2 at a concrete two-block input. -/
theorem claim2_cpus_block_sequence_witness :
    (CpuInfo.mk (joinBlocks [smallBlock, noProcBlock])).cpus =
      [smallBlock, noProcBlock].map Cpu.fromStr ∧
    ((CpuInfo.mk (joinBlocks [smallBlock, noProcBlock])).cpus).length =
      [smallBlock, noProcBlock].length :=
  claim2_cpus_block_sequence.2 [smallBlock, noProcBlock] (by decide) (by decide)

/-- C4 counterexample: `cache_size` does not always return the mathematical
product `N * 1024 ^ 3` for a `"<N> GB"` value — at `N = 2 ^ 54` the
64-bit multiplication wraps to `0`. -/
theorem claim4_cache_size_counterexample :
    (Cpu.fromStr overflowBlock).cache_size = some 0 ∧
    (Cpu.fromStr overflowBlock).cache_size ≠
      some (18014398509481984 * (1024 * 1024 * 1024)) := by
  constructor <;> decide

/-- C4 (amended): for a value `"<N> <UNIT>"`, `cache_size` parses the
numeric part and yields it times the unit factor reduced modulo `2 ^ 64`
(equal to the mathematical product whenever it fits in a 64-bit `usize`),
with an unparsable numeric part or an unrecognized unit yielding `none`;
a bare number yields itself; a missing key yields `none`. -/
theorem claim4_cache_size_amended :
    (∀ (c : Cpu) (v u : Str), ' ' ∉ v →
      c.get ("cache size".toList) = some (v ++ ' ' :: u) →
      c.cache_size = (parseUsize v).bind fun n =>
        (unitFactor u).map fun f => n * f % usizeBound) ∧
    (∀ (c : Cpu) (s : Str), ' ' ∉ s → c.get ("cache size".toList) = some s →
      c.cache_size = parseUsize s) ∧
    (∀ c : Cpu, c.get ("cache size".toList) = none → c.cache_size = none) := by
  refine ⟨?_, ?_, ?_⟩
  · intro c v u hsp hget
    unfold Cpu.cache_size
    rw [hget]
    simp only [Option.some_bind, splitOnceChar_append ' ' v u hsp]
    cases hv : parseUsize v with
    | none => rfl
    | some n =>
      have hlt := parseUsize_lt v n hv
      simp only [Option.some_bind]
      unfold unitFactor
      split_ifs <;> simp [Nat.mod_eq_of_lt hlt]
  · intro c s hsp hget
    unfold Cpu.cache_size
    rw [hget]
    simp only [Option.some_bind, splitOnceChar_none ' ' s hsp]
  · intro c h
    unfold Cpu.cache_size
    rw [h]
    rfl

/-- Witness for C4 at concrete inputs: `"18432 KB"` yields
`18432 * 1024 = 18874368` bytes, the unparsable numeric part `"abc KB"`
yields `none`, and a bare `"1048576"` yields itself. -/
theorem claim4_cache_size_amended_witness :
    (Cpu.fromStr smallBlock).cache_size =
      (parseUsize ("18432".toList)).bind
        (fun n => (unitFactor ("KB".toList)).map fun f => n * f % usizeBound) ∧
    (parseUsize ("18432".toList)).bind
      (fun n => (unitFactor ("KB".toList)).map fun f => n * f % usizeBound) =
        some 18874368 ∧
    (Cpu.fromStr badCacheBlock).cache_size =
      (parseUsize ("abc".toList)).bind
        (fun n => (unitFactor ("KB".toList)).map fun f => n * f % usizeBound) ∧
    (Cpu.fromStr badCacheBlock).cache_size = none ∧
    (Cpu.fromStr bareBlock).cache_size = parseUsize ("1048576".toList) ∧
    parseUsize ("1048576".toList) = some 1048576 :=
  ⟨claim4_cache_size_amended.1 (Cpu.fromStr smallBlock) ("18432".toList)
      ("KB".toList) (by decide) (by decide),
   by decide,
   claim4_cache_size_amended.1 (Cpu.fromStr badCacheBlock) ("abc".toList)
      ("KB".toList) (by decide) (by decide),
   by decide,
   claim4_cache_size_amended.2.1 (Cpu.fromStr bareBlock) ("1048576".toList)
      (by decide) (by decide),
   by decide⟩

/-- C5 counterexample: a present-but-empty `flags` value does not give the
empty set — Rust `"".split(' ')` yields one empty token, so the result is
the singleton set containing the empty string. -/
theorem claim5_flags_counterexample :
    (Cpu.fromStr emptyFlagsBlock).flags ≠ (∅ : Finset Str) ∧
    (Cpu.fromStr emptyFlagsBlock).flags = {([] : Str)} := by
  constructor <;> decide

/-- C5 (amended): `flags`, `vmx_flags` and `bugs` return the set of tokens
obtained by splitting the raw value on single spaces with duplicates
collapsed; a missing field gives the empty set, while a present-but-empty
value gives the singleton set containing the empty string. -/
theorem claim5_flags_amended :
    (∀ (c : Cpu) (s t : Str), c.get ("flags".toList) = some s →
      (t ∈ c.flags ↔ t ∈ splitChar ' ' s)) ∧
    (∀ c : Cpu, c.get ("flags".toList) = none → c.flags = ∅) ∧
    (∀ c : Cpu, c.get ("flags".toList) = some [] → c.flags = {([] : Str)}) ∧
    (∀ (c : Cpu) (s t : Str), c.get ("vmx flags".toList) = some s →
      (t ∈ c.vmx_flags ↔ t ∈ splitChar ' ' s)) ∧
    (∀ c : Cpu, c.get ("vmx flags".toList) = none → c.vmx_flags = ∅) ∧
    (∀ c : Cpu, c.get ("vmx flags".toList) = some [] →
      c.vmx_flags = {([] : Str)}) ∧
    (∀ (c : Cpu) (s t : Str), c.get ("bugs".toList) = some s →
      (t ∈ c.bugs ↔ t ∈ splitChar ' ' s)) ∧
    (∀ c : Cpu, c.get ("bugs".toList) = none → c.bugs = ∅) ∧
    (∀ c : Cpu, c.get ("bugs".toList) = some [] → c.bugs = {([] : Str)}) := by
  refine ⟨?_, ?_, ?_, ?_, ?_, ?_, ?_, ?_, ?_⟩
  · intro c s t h
    unfold Cpu.flags
    rw [h]
    exact List.mem_toFinset
  · intro c h; unfold Cpu.flags; rw [h]
  · intro c h; unfold Cpu.flags; rw [h]; decide
  · intro c s t h
    unfold Cpu.vmx_flags
    rw [h]
    exact List.mem_toFinset
  · intro c h; unfold Cpu.vmx_flags; rw [h]
  · intro c h; unfold Cpu.vmx_flags; rw [h]; decide
  · intro c s t h
    unfold Cpu.bugs
    rw [h]
    exact List.mem_toFinset
  · intro c h; unfold Cpu.bugs; rw [h]
  · intro c h; unfold Cpu.bugs; rw [h]; decide

/-- Witness for C5 at concrete inputs. -/
theorem claim5_flags_amended_witness :
    ("mmx".toList ∈ (Cpu.fromStr flagsBlock).flags ↔
      "mmx".toList ∈ splitChar ' ' "fpu mmx sse fpu".toList) ∧
    (Cpu.fromStr noProcBlock).flags = ∅ :=
  ⟨claim5_flags_amended.1 (Cpu.fromStr flagsBlock) "fpu mmx sse fpu".toList
      "mmx".toList (by decide),
   claim5_flags_amended.2.1 (Cpu.fromStr noProcBlock) (by decide)⟩

/-- C6: `address_sizes` splits the raw value at the comma, trims each side,
strips the fixed suffixes `" bits physical"` / `" bits virtual"` and parses
both sides as unsigned integers; a missing comma, an unparsable side or a
missing key yield `none`. -/
theorem claim6_address_sizes :
    (∀ (c : Cpu) (l r : Str),
      c.get ("address sizes".toList) = some (l ++ ',' :: r) → ',' ∉ l →
      c.address_sizes =
        (parseUsize (trimEndMatches (" bits physical".toList) (rustTrim l))).bind
          fun p =>
            (parseUsize (trimEndMatches (" bits virtual".toList)
              (rustTrim r))).map fun v => (p, v)) ∧
    (∀ (c : Cpu) (s : Str), c.get ("address sizes".toList) = some s →
      ',' ∉ s → c.address_sizes = none) ∧
    (∀ c : Cpu, c.get ("address sizes".toList) = none →
      c.address_sizes = none) := by
  refine ⟨?_, ?_, ?_⟩
  · intro c l r hget hnc
    unfold Cpu.address_sizes
    rw [hget]
    simp only [Option.some_bind, splitOnceChar_append ',' l r hnc,
      Option.map_some', Option.some_bind]
  · intro c s hget hnc
    unfold Cpu.address_sizes
    rw [hget]
    simp only [Option.some_bind, splitOnceChar_none ',' s hnc,
      Option.map_none', Option.none_bind]
  · intro c h
    unfold Cpu.address_sizes
    rw [h]
    rfl

/-- Witness for C6 at concrete inputs:
`"39 bits physical, 48 bits virtual"` yields `(39, 48)` and the variant
missing the comma yields `none`. -/
theorem claim6_address_sizes_witness :
    (Cpu.fromStr addrBlock).address_sizes = some (39, 48) ∧
    (Cpu.fromStr addrNoComma).address_sizes = none :=
  ⟨by
    rw [claim6_address_sizes.1 (Cpu.fromStr addrBlock)
      "39 bits physical".toList (" 48 bits virtual".toList) (by decide)
      (by decide)]
    decide,
   claim6_address_sizes.2.1 (Cpu.fromStr addrNoComma)
     "39 bits physical 48 bits virtual".toList (by decide) (by decide)⟩

/-- C9: `cache_size` computes the byte count with unchecked 64-bit
multiplication: at the shape-valid input `"18014398509481984 GB"`
(`N = 2 ^ 54`), the product `2 ^ 84` wraps modulo `2 ^ 64` to `0`, so the
result is present but is not the mathematical product of `N` and the unit
factor. -/
theorem claim9_cache_size_overflow :
    (Cpu.fromStr overflowBlock).cache_size =
      some (18014398509481984 * GIB % usizeBound) ∧
    18014398509481984 * GIB % usizeBound ≠ 18014398509481984 * GIB ∧
    (Cpu.fromStr overflowBlock).cache_size ≠ none := by
  refine ⟨by decide, by decide, by decide⟩

end ProcCpuinfo
